import Mathlib

/-!
Verification development for the compaction / multi-version metadata core of
an LSM storage engine: the hummock context/version manager
(`release_contexts`, `check_context`, `release_invalid_contexts`), the
compactor runner (`CompactorRunner::new`, `build_delete_range_iter`,
`build_sst_iter`), and the barrier actor-info resolver
(`BarrierActorInfo::resolve`).

Maps backed by `BTreeMap` in the source are embedded as association lists
`List (Nat × V)`; transactional mutation (`BTreeMapTransaction` +
`commit_multi_var`) is embedded by threading a staged copy of the four maps
and returning `Except`, so an error discards every staged mutation, exactly
as dropping the uncommitted transactions does in the source.
-/

namespace Hummock

/-- First value stored under key `k`, mirroring `BTreeMap::get`. -/
def alookup {V : Type} (l : List (Nat × V)) (k : Nat) : Option V :=
  match l with
  | [] => none
  | p :: rest => if p.1 = k then some p.2 else alookup rest k

/-- Remove every entry under key `k`, mirroring `BTreeMap::remove`
(the source maps have unique keys, so at most one entry is removed). -/
def aremove {V : Type} (l : List (Nat × V)) (k : Nat) : List (Nat × V) :=
  l.filter (fun p => p.1 ≠ k)

/-- Replace the value stored under key `k` by `f` of it, mirroring the
in-place mutation done through `BTreeMapTransaction::get_mut`. -/
def aupdate {V : Type} (l : List (Nat × V)) (k : Nat) (f : V → V) :
    List (Nat × V) :=
  l.map (fun p => if p.1 = k then (p.1, f p.2) else p)

/-- The fields of a meta-side `CompactTask` inspected by `release_contexts`:
the compaction group it belongs to and its task id. -/
structure MetaCompactTask where
  compaction_group_id : Nat
  task_id : Nat
  deriving DecidableEq, Repr

/-- `CompactTaskAssignment`: the context executing the task and the task
descriptor itself (an optional protobuf field, unwrapped with `expect` in
the source). -/
structure CompactTaskAssignment where
  context_id : Nat
  compact_task : Option MetaCompactTask
  deriving DecidableEq, Repr

/-- Modelled from the spec: `CompactStatus` (defined outside this
repository slice) "tracks per-level SSTable membership and in-progress task
bookkeeping"; the model keeps the ids of in-progress tasks the group still
accounts for. -/
structure CompactStatus where
  pending_tasks : List Nat
  deriving DecidableEq, Repr

/-- Modelled from the spec: `CompactStatus::report_compact_task` (defined
outside this repository slice) informs the group that the task has been
abandoned "so the group can re-admit replacement compaction"; the model
drops the task id from the group's in-progress bookkeeping. -/
def report_compact_task (status : CompactStatus) (task : MetaCompactTask) :
    CompactStatus :=
  ⟨status.pending_tasks.filter (fun tid => tid ≠ task.task_id)⟩

/-- The four `BTreeMap`s touched by `release_contexts`: per-group compaction
statuses and task assignments (compaction state), pinned versions and
pinned snapshots keyed by context id (versioning state). The pinned
payloads (`min_pinned_id` / `minimal_pinned_snapshot`) are opaque here. -/
structure HummockState where
  compaction_statuses : List (Nat × CompactStatus)
  compact_task_assignment : List (Nat × CompactTaskAssignment)
  pinned_versions : List (Nat × Nat)
  pinned_snapshots : List (Nat × Nat)
  deriving DecidableEq, Repr

/-- Failure modes of `release_contexts`:
`invalidCompactionGroup` is `Error::InvalidCompactionGroup`, and
`expectNone` stands for the `expect("compact_task shouldn't be None")`
panic; either way the staged transactions are dropped uncommitted. -/
inductive ReleaseError where
  | invalidCompactionGroup (group_id : Nat)
  | expectNone
  deriving DecidableEq, Repr

/-- The inner loop of `release_contexts` for one context: for every
assignment owned by it (in map order), unwrap the task, look up its group's
compaction status and report the task to it, threading the staged statuses
map. -/
def report_all (statuses : List (Nat × CompactStatus)) :
    List CompactTaskAssignment →
      Except ReleaseError (List (Nat × CompactStatus))
  | [] => .ok statuses
  | a :: rest =>
    match a.compact_task with
    | none => .error .expectNone
    | some task =>
      match alookup statuses task.compaction_group_id with
      | none => .error (.invalidCompactionGroup task.compaction_group_id)
      | some _ =>
        report_all
          (aupdate statuses task.compaction_group_id
            (fun status => report_compact_task status task))
          rest

/-- One iteration of the `for context_id in context_ids` loop of
`release_contexts`: report every task assigned to the context, then remove
those assignments (by collected task id) and the context's pinned-version
and pinned-snapshot entries from the staged maps. -/
def release_one_context (s : HummockState) (context_id : Nat) :
    Except ReleaseError HummockState :=
  match report_all s.compaction_statuses
      ((s.compact_task_assignment.filter
        (fun p => p.2.context_id = context_id)).map Prod.snd) with
  | .error e => .error e
  | .ok statuses =>
    let task_ids_to_remove :=
      (s.compact_task_assignment.filter
        (fun p => p.2.context_id = context_id)).map Prod.fst
    .ok { compaction_statuses := statuses
          compact_task_assignment :=
            task_ids_to_remove.foldl aremove s.compact_task_assignment
          pinned_versions := aremove s.pinned_versions context_id
          pinned_snapshots := aremove s.pinned_snapshots context_id }

/-- The full loop of `release_contexts` over the given context ids,
threading the staged maps. -/
def release_contexts_loop (s : HummockState) :
    List Nat → Except ReleaseError HummockState
  | [] => .ok s
  | context_id :: rest =>
    match release_one_context s context_id with
    | .error e => .error e
    | .ok s' => release_contexts_loop s' rest

/-- `HummockManager::release_contexts`: stage removals for every given
context across all four maps, then `commit_multi_var` them atomically.
An error (unknown compaction group, or the `expect` panic) drops the staged
transactions, so no mutation reaches the maps. -/
def release_contexts (s : HummockState) (context_ids : List Nat) :
    Except ReleaseError HummockState :=
  release_contexts_loop s context_ids

/-- The state observed after a call to `release_contexts` returns: the
committed state on success, the untouched input state on failure (the
staged `BTreeMapTransaction`s are dropped without being applied). -/
def release_contexts_exec (s : HummockState) (context_ids : List Nat) :
    HummockState :=
  match release_contexts s context_ids with
  | .ok s' => s'
  | .error _ => s

/-- `HummockManager::release_invalid_contexts`: collect every context id
referenced by a task assignment, pinned version or pinned snapshot
(a `HashSet` in the source, a deduplicated list here), keep those failing
`check_context` (the cluster-membership lookup, passed in as a predicate),
release exactly that set and return it. -/
def release_invalid_contexts (check_context : Nat → Bool)
    (s : HummockState) :
    Except ReleaseError (List Nat × HummockState) :=
  let active_context_ids :=
    ((s.compact_task_assignment.map (fun p => p.2.context_id))
      ++ s.pinned_versions.map Prod.fst
      ++ s.pinned_snapshots.map Prod.fst).dedup
  let invalid_context_ids :=
    active_context_ids.filter (fun c => !check_context c)
  match release_contexts s invalid_context_ids with
  | .ok s' => .ok (invalid_context_ids, s')
  | .error e => .error e

/-- A small concrete manager state: one compaction group (id 10) tracking
tasks 7 and 8, task 7 assigned to context 1 and task 8 to context 2, both
contexts holding a pinned version and a pinned snapshot. -/
def exampleState : HummockState :=
  { compaction_statuses := [(10, ⟨[7, 8]⟩)]
    compact_task_assignment :=
      [(7, ⟨1, some ⟨10, 7⟩⟩), (8, ⟨2, some ⟨10, 8⟩⟩)]
    pinned_versions := [(1, 4), (2, 5)]
    pinned_snapshots := [(1, 3), (2, 6)] }

/-- `exampleState` after releasing context 1. -/
def exampleStateReleased : HummockState :=
  { compaction_statuses := [(10, ⟨[8]⟩)]
    compact_task_assignment := [(8, ⟨2, some ⟨10, 8⟩⟩)]
    pinned_versions := [(2, 5)]
    pinned_snapshots := [(2, 6)] }

/-- `exampleState` after releasing context 2. -/
def exampleStateReaped : HummockState :=
  { compaction_statuses := [(10, ⟨[7]⟩)]
    compact_task_assignment := [(7, ⟨1, some ⟨10, 7⟩⟩)]
    pinned_versions := [(1, 4)]
    pinned_snapshots := [(1, 3)] }

/-- A state whose single task assignment references compaction group 10,
which has no entry in the compaction-statuses map. -/
def badGroupState : HummockState :=
  { compaction_statuses := []
    compact_task_assignment := [(7, ⟨1, some ⟨10, 7⟩⟩)]
    pinned_versions := [(1, 4)]
    pinned_snapshots := [] }

end Hummock

namespace Barrier

/-- `WorkerNode` from the cluster registry; only the id is inspected here. -/
structure WorkerNode where
  id : Nat
  host : Nat
  deriving DecidableEq, Repr

/-- `ActorInfos` read from the meta store: per-node actor lists and
per-node source-actor lists. -/
structure ActorInfos where
  actor_maps : List (Nat × List Nat)
  source_actor_maps : List (Nat × List Nat)
  deriving DecidableEq, Repr

/-- `BarrierActorInfo`: node map plus the two per-node actor maps. -/
structure BarrierActorInfo where
  node_map : List (Nat × WorkerNode)
  actor_map : List (Nat × List Nat)
  actor_map_to_send : List (Nat × List Nat)
  deriving DecidableEq, Repr

/-- `BarrierActorInfo::resolve`: index the nodes by id and adopt the two
actor maps unchanged. -/
def BarrierActorInfo.resolve (all_nodes : List WorkerNode)
    (actor_infos : ActorInfos) : BarrierActorInfo :=
  { node_map := all_nodes.map (fun node => (node.id, node))
    actor_map := actor_infos.actor_maps
    actor_map_to_send := actor_infos.source_actor_maps }

/-- `BarrierActorInfo::actor_ids_to_collect`: the actor ids stored for
`node_id`, if any (the source clones the stored `Vec` and iterates it). -/
def BarrierActorInfo.actor_ids_to_collect (b : BarrierActorInfo)
    (node_id : Nat) : Option (List Nat) :=
  Hummock.alookup b.actor_map node_id

/-- `BarrierActorInfo::actor_ids_to_send`: same over the source-actor map. -/
def BarrierActorInfo.actor_ids_to_send (b : BarrierActorInfo)
    (node_id : Nat) : Option (List Nat) :=
  Hummock.alookup b.actor_map_to_send node_id

end Barrier

namespace Compactor

/-- Lexicographic order on byte strings: `a ≤ b`. -/
def keyLe : List Nat → List Nat → Bool
  | [], _ => true
  | _ :: _, [] => false
  | a :: as, b :: bs =>
    if a < b then true else if b < a then false else keyLe as bs

/-- Strict lexicographic order on byte strings: `a < b`. -/
def keyLt : List Nat → List Nat → Bool
  | [], [] => false
  | [], _ :: _ => true
  | _ :: _, [] => false
  | a :: as, b :: bs =>
    if a < b then true else if b < a then false else keyLt as bs

/-- The sdk `KeyRange` built by `CompactorRunner::new` and carried in
`TaskConfig`: byte bounds (empty bound = unbounded) and an exclusivity flag
for the right bound. -/
structure KeyRange where
  left : List Nat
  right : List Nat
  right_exclusive : Bool
  deriving DecidableEq, Repr

/-- The protobuf `KeyRange` carried by `task.splits` and
`SstableInfo.key_range` (`get_left` / `get_right`). -/
structure SplitRange where
  left : List Nat
  right : List Nat
  right_exclusive : Bool
  deriving DecidableEq, Repr

/-- `KeyRange::from(&proto)`. -/
def KeyRange.ofProto (r : SplitRange) : KeyRange :=
  ⟨r.left, r.right, r.right_exclusive⟩

/-- Modelled from the spec: `full_key_overlap` of the hummock sdk (defined
outside this repository slice) — whether two key ranges intersect; an empty
bound is unbounded, and an exclusive right bound excludes its endpoint. -/
def fullKeyOverlap (a b : KeyRange) : Bool :=
  (a.right.isEmpty || b.left.isEmpty ||
    (if a.right_exclusive then keyLt b.left a.right
      else keyLe b.left a.right)) &&
  (b.right.isEmpty || a.left.isEmpty ||
    (if b.right_exclusive then keyLt a.left b.right
      else keyLe a.left b.right))

/-- The protobuf `SstableInfo` fields used by the runner: object id and key
range. -/
structure TableInfo where
  id : Nat
  key_range : SplitRange
  deriving DecidableEq, Repr

/-- Modelled from the spec: `can_concat` of the hummock sdk (defined
outside this repository slice) — the tables cover disjoint, sorted key
ranges and can be concatenated into one ordered run. -/
def can_concat : List TableInfo → Bool
  | [] => true
  | [_] => true
  | t1 :: t2 :: rest =>
    keyLt t1.key_range.right t2.key_range.left && can_concat (t2 :: rest)

/-- `LevelType::Nonoverlapping as i32` (protobuf enum value). -/
def nonoverlappingLevelType : Nat := 1

/-- Protobuf `InputLevel`: level index, level type and input tables. -/
structure InputLevel where
  level_idx : Nat
  level_type : Nat
  table_infos : List TableInfo
  deriving DecidableEq, Repr

/-- The protobuf `CompactTask` fields read by the compactor runner. -/
structure CompactTask where
  input_ssts : List InputLevel
  splits : List SplitRange
  watermark : Nat
  compression_algorithm : Nat
  gc_delete_keys : Bool
  existing_table_ids : List Nat
  split_by_state_table : Bool
  deriving DecidableEq, Repr

/-- `CompressionAlgorithm`: none / Lz4 (fast) / Zstd (high-ratio). -/
inductive CompressionAlgorithm where
  | none
  | lz4
  | zstd
  deriving DecidableEq, Repr

/-- The `SstableBuilderOptions` fields set by `CompactorRunner::new` on top
of the defaults derived from `storage_opts` (represented by
`block_capacity`). -/
structure SstableBuilderOptions where
  capacity : Nat
  block_capacity : Nat
  compression_algorithm : CompressionAlgorithm
  deriving DecidableEq, Repr

/-- The slice of `CompactorContext` read by `CompactorRunner::new`: the
default builder options obtained from `storage_opts`, and the externally
computed `estimate_task_memory_capacity`. -/
structure CompactorContext where
  base_options : SstableBuilderOptions
  estimate_task_memory_capacity : CompactTask → Nat

/-- The `TaskConfig` fields populated by `CompactorRunner::new`. -/
structure TaskConfig where
  key_range : KeyRange
  gc_delete_keys : Bool
  watermark : Nat
  split_by_table : Bool
  deriving DecidableEq, Repr

/-- The slice of `Compactor` state built by `Compactor::new`: its builder
options and task config. -/
structure Compactor where
  options : SstableBuilderOptions
  task_config : TaskConfig
  deriving DecidableEq, Repr

/-- `CompactorRunner` state: the task, the constructed `Compactor`, the
split's key range and the split index. -/
structure CompactorRunner where
  compact_task : CompactTask
  compactor : Compactor
  key_range : KeyRange
  split_index : Nat
  deriving DecidableEq, Repr

/-- `CompactorRunner::new`: override compression (0 → none, 1 → Lz4,
otherwise Zstd) and capacity on the context's default options, and take
`task.splits[split_index]` as the split's key range with an exclusive right
bound. The index requires `split_index < task.splits.len()` — the source
indexes without a bounds check. -/
def CompactorRunner.new (split_index : Nat) (context : CompactorContext)
    (task : CompactTask) (h : split_index < task.splits.length) :
    CompactorRunner :=
  let options : SstableBuilderOptions :=
    { context.base_options with
        compression_algorithm :=
          match task.compression_algorithm with
          | 0 => CompressionAlgorithm.none
          | 1 => CompressionAlgorithm.lz4
          | _ => CompressionAlgorithm.zstd
        capacity := context.estimate_task_memory_capacity task }
  let key_range : KeyRange :=
    { left := (task.splits.get ⟨split_index, h⟩).left
      right := (task.splits.get ⟨split_index, h⟩).right
      right_exclusive := true }
  { compact_task := task
    compactor :=
      { options
        task_config :=
          { key_range
            gc_delete_keys := task.gc_delete_keys
            watermark := task.watermark
            split_by_table := task.split_by_state_table } }
    key_range
    split_index }

/-- Total wrapper of `CompactorRunner::new`: `none` stands for the panic of
the unchecked `task.splits[split_index]` indexing when the index is out of
bounds. -/
def CompactorRunner.mkChecked (split_index : Nat)
    (context : CompactorContext) (task : CompactTask) :
    Option CompactorRunner :=
  if h : split_index < task.splits.length then
    some (CompactorRunner.new split_index context task h)
  else
    none

/-- The runs one input level contributes to the merge iterator: a
non-overlapping level becomes a single concatenated run of its tables
intersecting the split's key range (guarded by a `can_concat` debug
assertion in the source); an overlapping level contributes each
intersecting table as its own run. -/
def level_runs (kr : KeyRange) (level : InputLevel) :
    List (List TableInfo) :=
  if level.table_infos.isEmpty then []
  else if level.level_type = nonoverlappingLevelType then
    [level.table_infos.filter (fun info =>
      fullKeyOverlap kr (KeyRange.ofProto info.key_range))]
  else
    (level.table_infos.filter (fun info =>
      fullKeyOverlap kr (KeyRange.ofProto info.key_range))).map
        (fun info => [info])

/-- `CompactorRunner::build_sst_iter`, at the level of iterator structure:
the list of runs handed to `UnorderedMergeIteratorInner::for_compactor`,
each run listing the tables of one `ConcatSstableIterator`. -/
def CompactorRunner.build_sst_iter (r : CompactorRunner) :
    List (List TableInfo) :=
  r.compact_task.input_ssts.foldl
    (fun table_iters level => table_iters ++ level_runs r.key_range level)
    []

/-- A user key: owning table id plus table-local key bytes. -/
structure UserKey where
  table_id : Nat
  key : List Nat
  deriving DecidableEq, Repr

/-- A full key: user key plus epoch/sequence. -/
structure FullKey where
  user_key : UserKey
  epoch : Nat
  deriving DecidableEq, Repr

/-- Order on user keys: by table id, then lexicographically by key bytes. -/
def userKeyLe (a b : UserKey) : Bool :=
  if a.table_id < b.table_id then true
  else if b.table_id < a.table_id then false
  else keyLe a.key b.key

/-- Strict order on user keys. -/
def userKeyLt (a b : UserKey) : Bool :=
  if a.table_id < b.table_id then true
  else if b.table_id < a.table_id then false
  else keyLt a.key b.key

/-- `UserKey::default()`: table id 0 and empty key bytes; passed for an
unbounded end of a tombstone query. -/
def UserKey.isDefault (k : UserKey) : Bool :=
  k.table_id == 0 && k.key.isEmpty

/-- `DeleteRangeTombstone`: a range delete `[start, end)` scoped to one
table, effective as of a sequence. -/
structure DeleteRangeTombstone where
  start_user_key : UserKey
  end_user_key : UserKey
  sequence : Nat
  deriving DecidableEq, Repr

/-- `DeleteRangeTombstone::new(table_id, start, end, sequence)`. -/
def DeleteRangeTombstone.new (table_id : Nat)
    (start_key end_key : List Nat) (sequence : Nat) :
    DeleteRangeTombstone :=
  ⟨⟨table_id, start_key⟩, ⟨table_id, end_key⟩, sequence⟩

/-- Modelled from the spec: a boundary event of the monotonic tombstone
event stream — coverage +1 at a tombstone's start key, −1 at its end key,
tagged with the tombstone's sequence. -/
structure MonotonicEvent where
  key : UserKey
  delta : Int
  sequence : Nat
  deriving DecidableEq, Repr

/-- Insert an event into a key-sorted event list. -/
def insert_event (e : MonotonicEvent) :
    List MonotonicEvent → List MonotonicEvent
  | [] => [e]
  | x :: xs =>
    if userKeyLe e.key x.key then e :: x :: xs else x :: insert_event e xs

/-- Modelled from the spec: `create_monotonic_events` (defined outside this
repository slice) — the key-sorted boundary-event stream of a tombstone
list. -/
def create_monotonic_events (ts : List DeleteRangeTombstone) :
    List MonotonicEvent :=
  ((ts.map (fun t =>
    [MonotonicEvent.mk t.start_user_key 1 t.sequence,
     MonotonicEvent.mk t.end_user_key (-1) t.sequence])).flatten).foldr
    insert_event []

/-- A loaded sstable as returned by the table store: its data entries (full
key bytes in stored order) and the range tombstones represented by its
meta's monotonic tombstone events
(`create_tombstones_to_represent_monotonic_deletes` of the stored stream,
both defined outside this repository slice). -/
structure SSTable where
  entries : List (List Nat)
  tombstones : List DeleteRangeTombstone
  deriving DecidableEq, Repr

/-- Failure of a table-store load (`sstable_store.sstable(..).await?`). -/
inductive StorageError where
  | objectIoError
  deriving DecidableEq, Repr

/-- `CompactionDeleteRangesBuilder` (defined outside this repository
slice): accumulates the surviving tombstones of every input table. -/
structure CompactionDeleteRangesBuilder where
  tombstones : List DeleteRangeTombstone
  deriving DecidableEq, Repr

/-- `CompactionDeleteRangesBuilder::default()`. -/
def CompactionDeleteRangesBuilder.empty : CompactionDeleteRangesBuilder :=
  ⟨[]⟩

/-- `CompactionDeleteRangesBuilder::add_tombstone`. -/
def CompactionDeleteRangesBuilder.add_tombstone
    (b : CompactionDeleteRangesBuilder)
    (ts : List DeleteRangeTombstone) : CompactionDeleteRangesBuilder :=
  ⟨b.tombstones ++ ts⟩

/-- Modelled from the spec: `CompactionDeleteRanges` (defined outside this
repository slice) — the per-task delete-range aggregator holding the folded
tombstones and the task's `gc_delete_keys` flag (when false the events are
kept for read-time filtering only). -/
structure CompactionDeleteRanges where
  tombstones : List DeleteRangeTombstone
  gc_delete_keys : Bool
  deriving DecidableEq, Repr

/-- `CompactionDeleteRangesBuilder::build_for_compaction(gc_delete_keys)`. -/
def CompactionDeleteRangesBuilder.build_for_compaction
    (b : CompactionDeleteRangesBuilder) (gc_delete_keys : Bool) :
    CompactionDeleteRanges :=
  ⟨b.tombstones, gc_delete_keys⟩

/-- Modelled from the spec: `get_tombstone_between(smallest, largest)`
(defined outside this repository slice) — the monotonic events of the
stored tombstones whose interval `[start, end)` intersects
`[smallest, largest)`; a default (empty) user key bound is unbounded, as in
the full-range query of the source's test. -/
def CompactionDeleteRanges.get_tombstone_between
    (agg : CompactionDeleteRanges) (smallest largest : UserKey) :
    List MonotonicEvent :=
  create_monotonic_events (agg.tombstones.filter (fun t =>
    (smallest.isDefault || userKeyLt smallest t.end_user_key) &&
    (largest.isDefault || userKeyLt t.start_user_key largest)))

/-- Modelled from the spec: `StateCleanUpCompactionFilter` (defined outside
this repository slice) — `should_delete` accepts exactly the keys whose
table id is not among the task's existing table ids. -/
def state_clean_up_filter (existing_table_ids : List Nat)
    (key : FullKey) : Bool :=
  !(existing_table_ids.contains key.user_key.table_id)

/-- The inner table loop of `build_delete_range_iter`: load each table,
take the tombstones represented by its monotonic events, drop every
tombstone whose start key (paired with its sequence) the compaction filter
would delete, and add the survivors to the builder. -/
def collect_table_tombstones
    (sstable_store : TableInfo → Except StorageError SSTable)
    (filter : FullKey → Bool) :
    CompactionDeleteRangesBuilder → List TableInfo →
      Except StorageError CompactionDeleteRangesBuilder
  | builder, [] => .ok builder
  | builder, table_info :: rest =>
    match sstable_store table_info with
    | .error e => .error e
    | .ok table =>
      collect_table_tombstones sstable_store filter
        (builder.add_tombstone (table.tombstones.filter (fun tombstone =>
          !filter ⟨tombstone.start_user_key, tombstone.sequence⟩)))
        rest

/-- The level loop of `build_delete_range_iter` (levels with no tables are
skipped). -/
def collect_level_tombstones
    (sstable_store : TableInfo → Except StorageError SSTable)
    (filter : FullKey → Bool) :
    CompactionDeleteRangesBuilder → List InputLevel →
      Except StorageError CompactionDeleteRangesBuilder
  | builder, [] => .ok builder
  | builder, level :: rest =>
    if level.table_infos.isEmpty then
      collect_level_tombstones sstable_store filter builder rest
    else
      match collect_table_tombstones sstable_store filter builder
          level.table_infos with
      | .error e => .error e
      | .ok builder => collect_level_tombstones sstable_store filter builder rest

/-- `CompactorRunner::build_delete_range_iter`: fold every input table's
filtered tombstones into one aggregator built with the task's
`gc_delete_keys` flag. -/
def build_delete_range_iter (compact_task : CompactTask)
    (sstable_store : TableInfo → Except StorageError SSTable)
    (filter : FullKey → Bool) :
    Except StorageError CompactionDeleteRanges :=
  match collect_level_tombstones sstable_store filter
      CompactionDeleteRangesBuilder.empty compact_task.input_ssts with
  | .error e => .error e
  | .ok builder =>
    .ok (builder.build_for_compaction compact_task.gc_delete_keys)


/-- A full key is inside an iterator's key range: at or after the left
bound, and before (or at, if inclusive) the right bound; empty bounds are
unbounded. -/
def inKeyRange (kr : KeyRange) (k : List Nat) : Bool :=
  (kr.left.isEmpty || keyLe kr.left k) &&
  (kr.right.isEmpty ||
    (if kr.right_exclusive then keyLt k kr.right else keyLe k kr.right))

/-- Modelled from the spec: the entries one `ConcatSstableIterator` yields —
its tables' stored entries in table order, restricted to the iterator's key
range. -/
def concat_iter_entries (sstable_store : TableInfo → SSTable)
    (kr : KeyRange) (tables : List TableInfo) : List (List Nat) :=
  ((tables.map (fun info => (sstable_store info).entries)).flatten).filter
    (fun k => inKeyRange kr k)

/-- One step of the k-way merge: the smallest head key across the runs
(the earliest run wins ties) together with the remaining runs. -/
def pickMin : List (List (List Nat)) →
    Option (List Nat × List (List (List Nat)))
  | [] => none
  | [] :: rest => pickMin rest
  | (k :: ks) :: rest =>
    match pickMin rest with
    | none => some (k, ks :: rest)
    | some (k2, rest2) =>
      if keyLe k k2 then some (k, ks :: rest) else some (k2, (k :: ks) :: rest2)

/-- Fuelled k-way merge loop (the fuel is the total number of entries). -/
def merge_entries_fuel : Nat → List (List (List Nat)) → List (List Nat)
  | 0, _ => []
  | Nat.succ n, runs =>
    match pickMin runs with
    | none => []
    | some (k, rest) => k :: merge_entries_fuel n rest

/-- Modelled from the spec: the entry stream of
`UnorderedMergeIteratorInner::for_compactor` — an order-preserving k-way
merge of the runs. -/
def merge_entries (runs : List (List (List Nat))) : List (List Nat) :=
  merge_entries_fuel (runs.foldl (fun n r => n + r.length) 0) runs

/-- The full-key stream the runner's merge iterator emits for this split:
the k-way merge of the per-run concatenated, range-restricted entries. -/
def CompactorRunner.emitted_entries (r : CompactorRunner)
    (sstable_store : TableInfo → SSTable) : List (List Nat) :=
  merge_entries (r.build_sst_iter.map
    (concat_iter_entries sstable_store r.compactor.task_config.key_range))

/-- Concrete input tables `T1..T4` of a non-overlapping level, covering the
disjoint sorted ranges `[1]-[2]`, `[3]-[4]`, `[5]-[6]`, `[7]-[8]`. -/
def mergeTable1 : TableInfo := ⟨1, ⟨[1], [2], false⟩⟩

def mergeTable2 : TableInfo := ⟨2, ⟨[3], [4], false⟩⟩

def mergeTable3 : TableInfo := ⟨3, ⟨[5], [6], false⟩⟩

def mergeTable4 : TableInfo := ⟨4, ⟨[7], [8], false⟩⟩

/-- A table store serving each `mergeTable` its two entries (the bounds of
its key range) and no tombstones. -/
def mergeStore : TableInfo → SSTable :=
  fun info => ⟨[[2 * info.id - 1], [2 * info.id]], []⟩

/-- The single non-overlapping input level `{T1, T2, T3, T4}`. -/
def mergeLevel : InputLevel :=
  ⟨1, nonoverlappingLevelType, [mergeTable1, mergeTable2, mergeTable3, mergeTable4]⟩

/-- A task over `mergeLevel` with one split `[3], [7])` overlapping exactly
`{T2, T3}`. -/
def mergeTask : CompactTask :=
  { input_ssts := [mergeLevel]
    splits := [⟨[3], [7], true⟩]
    watermark := 0
    compression_algorithm := 1
    gc_delete_keys := false
    existing_table_ids := [1, 2, 3, 4]
    split_by_state_table := false }

/-- A compactor context with trivial defaults. -/
def mergeContext : CompactorContext :=
  ⟨⟨0, 0, CompressionAlgorithm.none⟩, fun _ => 0⟩

/-- The runner for split 0 of `mergeTask`. -/
def mergeRunner : CompactorRunner :=
  CompactorRunner.new 0 mergeContext mergeTask (by decide)

/-- The tombstone on table 1 covering `abc`-`cde` at sequence 1. -/
def tombstoneTable1 : DeleteRangeTombstone :=
  DeleteRangeTombstone.new 1 [97, 98, 99] [99, 100, 101] 1

/-- The tombstone on table 2 covering `abc`-`def` at sequence 1. -/
def tombstoneTable2 : DeleteRangeTombstone :=
  DeleteRangeTombstone.new 2 [97, 98, 99] [100, 101, 102] 1

/-- The input table holding both tombstones. -/
def deleteRangeTableInfo : TableInfo := ⟨1, ⟨[97, 98, 99], [100, 101, 102], false⟩⟩

/-- A table store serving the tombstone table (no data entries). -/
def deleteRangeStore : TableInfo → Except StorageError SSTable :=
  fun _ => .ok ⟨[], [tombstoneTable1, tombstoneTable2]⟩

/-- A task whose only existing table id is 2, so a state-clean-up filter
rejects table-1 keys. -/
def deleteRangeTask : CompactTask :=
  { input_ssts := [⟨0, 0, [deleteRangeTableInfo]⟩]
    splits := []
    watermark := 0
    compression_algorithm := 0
    gc_delete_keys := false
    existing_table_ids := [2]
    split_by_state_table := false }

/-- The full-range tombstone query after `build_delete_range_iter` on
`deleteRangeTask` (the default user keys make both bounds unbounded);
empty on a load failure. -/
def delete_range_example_result : List MonotonicEvent :=
  match build_delete_range_iter deleteRangeTask deleteRangeStore
      (state_clean_up_filter deleteRangeTask.existing_table_ids) with
  | .ok agg => agg.get_tombstone_between ⟨0, []⟩ ⟨0, []⟩
  | .error _ => []

end Compactor

namespace Hummock

theorem alookup_cons {V : Type} (p : Nat × V) (rest : List (Nat × V))
    (k : Nat) :
    alookup (p :: rest) k = if p.1 = k then some p.2 else alookup rest k :=
  rfl

theorem aremove_cons {V : Type} (p : Nat × V) (rest : List (Nat × V))
    (k : Nat) :
    aremove (p :: rest) k =
      if p.1 = k then aremove rest k else p :: aremove rest k := by
  by_cases hp : p.1 = k <;> simp [aremove, List.filter_cons, hp]

theorem aupdate_cons {V : Type} (p : Nat × V) (rest : List (Nat × V))
    (k : Nat) (f : V → V) :
    aupdate (p :: rest) k f =
      (if p.1 = k then (p.1, f p.2) else p) :: aupdate rest k f := by
  by_cases hp : p.1 = k <;> simp [aupdate, hp]

theorem alookup_aremove_ne {V : Type} (l : List (Nat × V)) (k k' : Nat)
    (h : k' ≠ k) : alookup (aremove l k) k' = alookup l k' := by
  induction l with
  | nil => rfl
  | cons p rest ih =>
    rw [aremove_cons]
    by_cases hp : p.1 = k
    · have hne : p.1 ≠ k' := by rw [hp]; exact fun hc => h hc.symm
      rw [if_pos hp, alookup_cons, if_neg hne]
      exact ih
    · rw [if_neg hp, alookup_cons, alookup_cons]
      by_cases hk' : p.1 = k'
      · rw [if_pos hk', if_pos hk']
      · rw [if_neg hk', if_neg hk']
        exact ih

theorem alookup_aremove_self {V : Type} (l : List (Nat × V)) (k : Nat) :
    alookup (aremove l k) k = none := by
  induction l with
  | nil => rfl
  | cons p rest ih =>
    rw [aremove_cons]
    by_cases hp : p.1 = k
    · rw [if_pos hp]; exact ih
    · rw [if_neg hp, alookup_cons, if_neg hp]; exact ih

theorem aremove_of_not_mem {V : Type} (l : List (Nat × V)) (k : Nat)
    (h : ∀ p ∈ l, p.1 ≠ k) : aremove l k = l := by
  induction l with
  | nil => rfl
  | cons p rest ih =>
    have hp := h p (List.mem_cons_self p rest)
    rw [aremove_cons, if_neg hp, ih (fun q hq => h q (List.mem_cons_of_mem p hq))]

theorem alookup_eq_none_iff {V : Type} (l : List (Nat × V)) (k : Nat) :
    alookup l k = none ↔ ∀ p ∈ l, p.1 ≠ k := by
  induction l with
  | nil => simp [alookup]
  | cons p rest ih =>
    rw [alookup_cons]
    by_cases hp : p.1 = k
    · simp [hp]
    · simp [hp, ih]

theorem mem_aupdate {V : Type} {l : List (Nat × V)} {k : Nat} {f : V → V}
    {q : Nat × V} (h : q ∈ aupdate l k f) :
    (q ∈ l ∧ q.1 ≠ k) ∨ (∃ v, (k, v) ∈ l ∧ q = (k, f v)) := by
  rcases List.mem_map.mp h with ⟨p, hp, hq⟩
  by_cases hk : p.1 = k
  · right
    rw [if_pos hk] at hq
    refine ⟨p.2, ?_, ?_⟩
    · rw [← hk]; exact hp
    · rw [← hq, hk]
  · left
    rw [if_neg hk] at hq
    rw [← hq]
    exact ⟨hp, hk⟩

theorem aupdate_keys {V : Type} (l : List (Nat × V)) (k : Nat) (f : V → V) :
    (aupdate l k f).map Prod.fst = l.map Prod.fst := by
  induction l with
  | nil => rfl
  | cons p rest ih =>
    rw [aupdate_cons]
    by_cases hp : p.1 = k
    · rw [if_pos hp]
      simpa using ih
    · rw [if_neg hp]
      simpa using ih

theorem alookup_aupdate_ne {V : Type} (l : List (Nat × V)) (k k' : Nat)
    (f : V → V) (h : k' ≠ k) :
    alookup (aupdate l k f) k' = alookup l k' := by
  induction l with
  | nil => rfl
  | cons p rest ih =>
    rw [aupdate_cons]
    by_cases hp : p.1 = k
    · have hne : p.1 ≠ k' := by rw [hp]; exact fun hc => h hc.symm
      rw [if_pos hp, alookup_cons, alookup_cons, if_neg hne]
      simp only [hp]
      rw [if_neg (fun hc => h hc.symm)]
      exact ih
    · rw [if_neg hp, alookup_cons, alookup_cons]
      by_cases hk' : p.1 = k'
      · rw [if_pos hk', if_pos hk']
      · rw [if_neg hk', if_neg hk']
        exact ih

theorem mem_aremove {V : Type} {l : List (Nat × V)} {k : Nat} {p : Nat × V} :
    p ∈ aremove l k ↔ p ∈ l ∧ p.1 ≠ k := by
  simp [aremove, List.mem_filter]

theorem mem_foldl_aremove {V : Type} (ks : List Nat) :
    ∀ (l : List (Nat × V)) (p : Nat × V),
      p ∈ ks.foldl aremove l ↔ p ∈ l ∧ p.1 ∉ ks := by
  induction ks with
  | nil => intro l p; simp
  | cons k ks ih =>
    intro l p
    simp only [List.foldl_cons]
    rw [ih (aremove l k) p, mem_aremove]
    constructor
    · rintro ⟨⟨hmem, hne⟩, hnot⟩
      refine ⟨hmem, ?_⟩
      intro hc
      rcases List.mem_cons.mp hc with hc | hc
      · exact hne hc
      · exact hnot hc
    · rintro ⟨hmem, hnot⟩
      refine ⟨⟨hmem, fun hc => hnot (hc ▸ List.mem_cons_self k ks)⟩, ?_⟩
      exact fun hc => hnot (List.mem_cons_of_mem k hc)

theorem alookup_aupdate_self {V : Type} (l : List (Nat × V)) (k : Nat)
    (f : V → V) : alookup (aupdate l k f) k = (alookup l k).map f := by
  induction l with
  | nil => rfl
  | cons p rest ih =>
    rw [aupdate_cons]
    by_cases hp : p.1 = k
    · rw [if_pos hp, alookup_cons, alookup_cons, if_pos hp]
      simp [hp]
    · rw [if_neg hp, alookup_cons, alookup_cons, if_neg hp, if_neg hp]
      exact ih

theorem alookup_aupdate {V : Type} (l : List (Nat × V)) (k k' : Nat)
    (f : V → V) :
    alookup (aupdate l k f) k' =
      if k' = k then (alookup l k').map f else alookup l k' := by
  by_cases h : k' = k
  · rw [if_pos h, h]
    exact alookup_aupdate_self l k f
  · rw [if_neg h]
    exact alookup_aupdate_ne l k k' f h

theorem alookup_eq_none_iff_keys {V : Type} (l : List (Nat × V)) (k : Nat) :
    alookup l k = none ↔ k ∉ l.map Prod.fst := by
  rw [alookup_eq_none_iff]
  simp only [List.mem_map]
  constructor
  · rintro h ⟨p, hp, hk⟩
    exact h p hp hk
  · intro h p hp hk
    exact h ⟨p, hp, hk⟩

theorem key_nodup_inj {V : Type} {l : List (Nat × V)}
    (hnd : (l.map Prod.fst).Nodup) {p q : Nat × V}
    (hp : p ∈ l) (hq : q ∈ l) (hk : p.1 = q.1) : p = q := by
  induction l with
  | nil => cases hp
  | cons a rest ih =>
    rw [List.map_cons, List.nodup_cons] at hnd
    rcases List.mem_cons.mp hp with hp1 | hp1 <;>
      rcases List.mem_cons.mp hq with hq1 | hq1
    · rw [hp1, hq1]
    · exfalso
      apply hnd.1
      have ha : a.1 = q.1 := by rw [← hp1]; exact hk
      rw [ha]
      exact List.mem_map.mpr ⟨q, hq1, rfl⟩
    · exfalso
      apply hnd.1
      have ha : a.1 = p.1 := by rw [← hq1]; exact hk.symm
      rw [ha]
      exact List.mem_map.mpr ⟨p, hp1, rfl⟩
    · exact ih hnd.2 hp1 hq1

theorem keys_nodup_of_sublist {V : Type} {l l' : List (Nat × V)}
    (hsub : l'.Sublist l) (hnd : (l.map Prod.fst).Nodup) :
    (l'.map Prod.fst).Nodup :=
  (hsub.map Prod.fst).nodup hnd

theorem report_all_keys (as : List CompactTaskAssignment) :
    ∀ (statuses statuses' : List (Nat × CompactStatus)),
      report_all statuses as = .ok statuses' →
      statuses'.map Prod.fst = statuses.map Prod.fst := by
  induction as with
  | nil =>
    intro statuses statuses' h
    simp only [report_all] at h
    cases h
    rfl
  | cons a rest ih =>
    intro statuses statuses' h
    simp only [report_all] at h
    split at h
    · cases h
    · split at h
      · cases h
      · rw [ih _ _ h, aupdate_keys]

theorem report_all_shrink (as : List CompactTaskAssignment) :
    ∀ (statuses statuses' : List (Nat × CompactStatus)),
      report_all statuses as = .ok statuses' →
      ∀ g st', alookup statuses' g = some st' →
        ∃ st, alookup statuses g = some st ∧
          ∀ tid ∈ st'.pending_tasks, tid ∈ st.pending_tasks := by
  induction as with
  | nil =>
    intro statuses statuses' h g st' hl
    simp only [report_all] at h
    cases h
    exact ⟨st', hl, fun _ ht => ht⟩
  | cons a rest ih =>
    intro statuses statuses' h g st' hl
    simp only [report_all] at h
    split at h
    · cases h
    · rename_i task ha
      split at h
      · cases h
      · rename_i st0 hg
        rcases ih _ _ h g st' hl with ⟨st1, hst1, hsub1⟩
        rw [alookup_aupdate] at hst1
        by_cases hgg : g = task.compaction_group_id
        · rw [if_pos hgg, hgg, hg] at hst1
          simp only [Option.map_some'] at hst1
          cases hst1
          refine ⟨st0, by rw [hgg]; exact hg, ?_⟩
          intro tid htid
          exact List.mem_of_mem_filter (hsub1 tid htid)
        · rw [if_neg hgg] at hst1
          exact ⟨st1, hst1, hsub1⟩

theorem report_all_removed (as : List CompactTaskAssignment) :
    ∀ (statuses statuses' : List (Nat × CompactStatus)),
      report_all statuses as = .ok statuses' →
      ∀ a ∈ as, ∀ t, a.compact_task = some t →
        ∀ st', alookup statuses' t.compaction_group_id = some st' →
          t.task_id ∉ st'.pending_tasks := by
  induction as with
  | nil =>
    intro statuses statuses' _ a ha
    cases ha
  | cons a0 rest ih =>
    intro statuses statuses' h a ha t ht st' hst'
    simp only [report_all] at h
    split at h
    · cases h
    · rename_i task ha0
      split at h
      · cases h
      · rename_i st0 hg
        rcases List.mem_cons.mp ha with ha1 | ha1
        · -- `a` is the head: its task id is filtered out of its group's
          -- staged status; later reports only shrink pending sets.
          have htask : t = task := by
            rw [ha1] at ht
            rw [ht] at ha0
            cases ha0
            rfl
          subst htask
          rcases report_all_shrink rest _ _ h t.compaction_group_id st' hst'
            with ⟨st1, hst1, hsub1⟩
          rw [alookup_aupdate, if_pos rfl, hg] at hst1
          simp only [Option.map_some'] at hst1
          cases hst1
          intro hc
          rcases List.mem_filter.mp (hsub1 t.task_id hc) with ⟨_, hne⟩
          simp at hne
        · exact ih _ _ h a ha1 t ht st' hst'

theorem report_all_found (as : List CompactTaskAssignment) :
    ∀ (statuses statuses' : List (Nat × CompactStatus)),
      report_all statuses as = .ok statuses' →
      ∀ a ∈ as, ∀ t, a.compact_task = some t →
        alookup statuses t.compaction_group_id ≠ none := by
  induction as with
  | nil =>
    intro statuses statuses' _ a ha
    cases ha
  | cons a0 rest ih =>
    intro statuses statuses' h a ha t ht
    simp only [report_all] at h
    split at h
    · cases h
    · rename_i task ha0
      split at h
      · cases h
      · rename_i st0 hg
        rcases List.mem_cons.mp ha with ha1 | ha1
        · have htask : t = task := by
            rw [ha1] at ht
            rw [ht] at ha0
            cases ha0
            rfl
          subst htask
          rw [hg]
          exact fun hc => by cases hc
        · have hup := ih _ _ h a ha1 t ht
          intro hc
          apply hup
          rw [alookup_eq_none_iff_keys] at hc ⊢
          rw [aupdate_keys]
          exact hc

theorem report_all_error_invalid (as : List CompactTaskAssignment) :
    ∀ (statuses : List (Nat × CompactStatus)) (e : ReleaseError),
      (∀ a ∈ as, a.compact_task ≠ none) →
      report_all statuses as = .error e →
      ∃ g, e = .invalidCompactionGroup g := by
  induction as with
  | nil =>
    intro statuses e _ h
    simp only [report_all] at h
    cases h
  | cons a0 rest ih =>
    intro statuses e htasks h
    simp only [report_all] at h
    split at h
    · rename_i ha0
      exact absurd ha0 (htasks a0 (List.mem_cons_self a0 rest))
    · rename_i task ha0
      split at h
      · cases h
        exact ⟨task.compaction_group_id, rfl⟩
      · exact ih _ e (fun a ha => htasks a (List.mem_cons_of_mem a0 ha)) h

theorem report_all_error_bad (as : List CompactTaskAssignment) :
    ∀ (statuses : List (Nat × CompactStatus)) (e : ReleaseError),
      (∀ a ∈ as, a.compact_task ≠ none) →
      report_all statuses as = .error e →
      ∃ a ∈ as, ∃ t, a.compact_task = some t ∧
        alookup statuses t.compaction_group_id = none := by
  induction as with
  | nil =>
    intro statuses e _ h
    simp only [report_all] at h
    cases h
  | cons a0 rest ih =>
    intro statuses e htasks h
    simp only [report_all] at h
    split at h
    · rename_i ha0
      exact absurd ha0 (htasks a0 (List.mem_cons_self a0 rest))
    · rename_i task ha0
      split at h
      · rename_i hg
        exact ⟨a0, List.mem_cons_self a0 rest, task, ha0, hg⟩
      · rename_i st0 hg
        rcases ih _ e (fun a ha => htasks a (List.mem_cons_of_mem a0 ha)) h
          with ⟨a, ha, t, ht, hnone⟩
        refine ⟨a, List.mem_cons_of_mem a0 ha, t, ht, ?_⟩
        rw [alookup_eq_none_iff_keys] at hnone ⊢
        rw [aupdate_keys] at hnone
        exact hnone

theorem report_all_error_of_bad (as : List CompactTaskAssignment) :
    ∀ (statuses : List (Nat × CompactStatus)),
      (∃ a ∈ as, ∃ t, a.compact_task = some t ∧
        alookup statuses t.compaction_group_id = none) →
      ∃ e, report_all statuses as = .error e := by
  induction as with
  | nil =>
    intro statuses hbad
    rcases hbad with ⟨a, ha, _⟩
    cases ha
  | cons a0 rest ih =>
    intro statuses hbad
    cases ha0 : a0.compact_task with
    | none =>
      exact ⟨.expectNone, by simp only [report_all, ha0]⟩
    | some task =>
      cases hg : alookup statuses task.compaction_group_id with
      | none =>
        exact ⟨.invalidCompactionGroup task.compaction_group_id,
          by simp only [report_all, ha0, hg]⟩
      | some st0 =>
        rcases hbad with ⟨a, ha, t, ht, hnone⟩
        rcases List.mem_cons.mp ha with ha1 | ha1
        · exfalso
          rw [ha1, ha0] at ht
          cases ht
          rw [hg] at hnone
          cases hnone
        · have hnone1 : alookup
              (aupdate statuses task.compaction_group_id
                (fun status => report_compact_task status task))
              t.compaction_group_id = none := by
            rw [alookup_eq_none_iff_keys] at hnone ⊢
            rw [aupdate_keys]
            exact hnone
          rcases ih _ ⟨a, ha1, t, ht, hnone1⟩ with ⟨e, he⟩
          exact ⟨e, by simp only [report_all, ha0, hg, he]⟩

theorem foldl_aremove_sublist {V : Type} (ks : List Nat) :
    ∀ l : List (Nat × V), (ks.foldl aremove l).Sublist l := by
  induction ks with
  | nil => intro l; exact List.Sublist.refl l
  | cons k ks ih =>
    intro l
    simp only [List.foldl_cons]
    exact (ih (aremove l k)).trans (List.filter_sublist l)

theorem release_one_context_ok_parts {s s' : HummockState} {c : Nat}
    (h : release_one_context s c = .ok s') :
    report_all s.compaction_statuses
      ((s.compact_task_assignment.filter
        (fun p => p.2.context_id = c)).map Prod.snd)
      = .ok s'.compaction_statuses ∧
    s'.compact_task_assignment =
      ((s.compact_task_assignment.filter
        (fun p => p.2.context_id = c)).map Prod.fst).foldl aremove
        s.compact_task_assignment ∧
    s'.pinned_versions = aremove s.pinned_versions c ∧
    s'.pinned_snapshots = aremove s.pinned_snapshots c := by
  unfold release_one_context at h
  split at h
  · cases h
  · rename_i statuses hrep
    cases h
    exact ⟨hrep, rfl, rfl, rfl⟩

theorem release_one_context_error_elim {s : HummockState} {c : Nat}
    {e : ReleaseError} (h : release_one_context s c = .error e) :
    report_all s.compaction_statuses
      ((s.compact_task_assignment.filter
        (fun p => p.2.context_id = c)).map Prod.snd) = .error e := by
  unfold release_one_context at h
  split at h
  · rename_i e0 hrep
    cases h
    exact hrep
  · cases h

theorem release_one_context_mem_assignment {s s' : HummockState} {c : Nat}
    (h : release_one_context s c = .ok s') (p : Nat × CompactTaskAssignment) :
    p ∈ s'.compact_task_assignment ↔
      p ∈ s.compact_task_assignment ∧
      p.1 ∉ ((s.compact_task_assignment.filter
        (fun q => q.2.context_id = c)).map Prod.fst) := by
  rw [(release_one_context_ok_parts h).2.1]
  exact mem_foldl_aremove _ _ p

theorem release_one_context_assignment_gone {s s' : HummockState} {c : Nat}
    (h : release_one_context s c = .ok s') (p : Nat × CompactTaskAssignment)
    (hp : p ∈ s'.compact_task_assignment) :
    p ∈ s.compact_task_assignment ∧ p.2.context_id ≠ c := by
  rcases (release_one_context_mem_assignment h p).mp hp with ⟨hmem, hnot⟩
  refine ⟨hmem, fun hc => hnot ?_⟩
  exact List.mem_map.mpr ⟨p, List.mem_filter.mpr ⟨hmem, by simp [hc]⟩, rfl⟩

theorem release_one_context_assignment_kept {s s' : HummockState} {c : Nat}
    (hnd : (s.compact_task_assignment.map Prod.fst).Nodup)
    (h : release_one_context s c = .ok s') (p : Nat × CompactTaskAssignment)
    (hp : p ∈ s.compact_task_assignment) (hc : p.2.context_id ≠ c) :
    p ∈ s'.compact_task_assignment := by
  refine (release_one_context_mem_assignment h p).mpr ⟨hp, ?_⟩
  intro hmem
  rcases List.mem_map.mp hmem with ⟨q, hq, hq1⟩
  rcases List.mem_filter.mp hq with ⟨hqmem, hqc⟩
  have : p = q := key_nodup_inj hnd hp hqmem hq1.symm
  rw [this] at hc
  simp at hqc
  exact hc hqc

theorem release_loop_mono (ids : List Nat) :
    ∀ s s' : HummockState, release_contexts_loop s ids = .ok s' →
      (∀ p ∈ s'.compact_task_assignment, p ∈ s.compact_task_assignment) ∧
      (∀ p ∈ s'.pinned_versions, p ∈ s.pinned_versions) ∧
      (∀ p ∈ s'.pinned_snapshots, p ∈ s.pinned_snapshots) := by
  induction ids with
  | nil =>
    intro s s' h
    simp only [release_contexts_loop] at h
    cases h
    exact ⟨fun _ hp => hp, fun _ hp => hp, fun _ hp => hp⟩
  | cons c0 rest ih =>
    intro s s' h
    simp only [release_contexts_loop] at h
    split at h
    · cases h
    · rename_i s1 hstep
      rcases ih s1 s' h with ⟨ha, hv, hs⟩
      rcases release_one_context_ok_parts hstep with ⟨_, hasg, hpv, hps⟩
      refine ⟨fun p hp => ?_, fun p hp => ?_, fun p hp => ?_⟩
      · have := ha p hp
        rw [hasg] at this
        exact ((mem_foldl_aremove _ _ p).mp this).1
      · have := hv p hp
        rw [hpv] at this
        exact (mem_aremove.mp this).1
      · have := hs p hp
        rw [hps] at this
        exact (mem_aremove.mp this).1

theorem release_loop_statuses_keys (ids : List Nat) :
    ∀ s s' : HummockState, release_contexts_loop s ids = .ok s' →
      s'.compaction_statuses.map Prod.fst
        = s.compaction_statuses.map Prod.fst := by
  induction ids with
  | nil =>
    intro s s' h
    simp only [release_contexts_loop] at h
    cases h
    rfl
  | cons c0 rest ih =>
    intro s s' h
    simp only [release_contexts_loop] at h
    split at h
    · cases h
    · rename_i s1 hstep
      rw [ih s1 s' h,
        report_all_keys _ _ _ (release_one_context_ok_parts hstep).1]

theorem release_loop_shrink (ids : List Nat) :
    ∀ s s' : HummockState, release_contexts_loop s ids = .ok s' →
      ∀ g st', alookup s'.compaction_statuses g = some st' →
        ∃ st, alookup s.compaction_statuses g = some st ∧
          ∀ tid ∈ st'.pending_tasks, tid ∈ st.pending_tasks := by
  induction ids with
  | nil =>
    intro s s' h g st' hl
    simp only [release_contexts_loop] at h
    cases h
    exact ⟨st', hl, fun _ ht => ht⟩
  | cons c0 rest ih =>
    intro s s' h g st' hl
    simp only [release_contexts_loop] at h
    split at h
    · cases h
    · rename_i s1 hstep
      rcases ih s1 s' h g st' hl with ⟨st1, hst1, hsub1⟩
      rcases report_all_shrink _ _ _ (release_one_context_ok_parts hstep).1
        g st1 hst1 with ⟨st0, hst0, hsub0⟩
      exact ⟨st0, hst0, fun tid ht => hsub0 tid (hsub1 tid ht)⟩

theorem release_loop_clears (ids : List Nat) :
    ∀ s s' : HummockState, release_contexts_loop s ids = .ok s' →
      ∀ c ∈ ids,
        (∀ p ∈ s'.compact_task_assignment, p.2.context_id ≠ c) ∧
        alookup s'.pinned_versions c = none ∧
        alookup s'.pinned_snapshots c = none := by
  induction ids with
  | nil =>
    intro s s' _ c hc
    cases hc
  | cons c0 rest ih =>
    intro s s' h c hc
    simp only [release_contexts_loop] at h
    split at h
    · cases h
    · rename_i s1 hstep
      rcases List.mem_cons.mp hc with hc1 | hc1
      · subst hc1
        rcases release_one_context_ok_parts hstep with ⟨_, _, hpv, hps⟩
        rcases release_loop_mono rest s1 s' h with ⟨ha, hv, hs⟩
        refine ⟨?_, ?_, ?_⟩
        · intro p hp
          exact (release_one_context_assignment_gone hstep p (ha p hp)).2
        · rw [alookup_eq_none_iff]
          intro p hp
          have := hv p hp
          rw [hpv] at this
          exact (mem_aremove.mp this).2
        · rw [alookup_eq_none_iff]
          intro p hp
          have := hs p hp
          rw [hps] at this
          exact (mem_aremove.mp this).2
      · exact ih s1 s' h c hc1

theorem release_loop_removed (ids : List Nat) :
    ∀ s s' : HummockState,
      (s.compact_task_assignment.map Prod.fst).Nodup →
      release_contexts_loop s ids = .ok s' →
      ∀ c ∈ ids, ∀ p ∈ s.compact_task_assignment, p.2.context_id = c →
        ∀ t, p.2.compact_task = some t →
          ∀ st, alookup s'.compaction_statuses t.compaction_group_id
              = some st →
            t.task_id ∉ st.pending_tasks := by
  induction ids with
  | nil =>
    intro s s' _ _ c hc
    cases hc
  | cons c0 rest ih =>
    intro s s' hnd h c hc p hp hctx t ht st hst
    simp only [release_contexts_loop] at h
    split at h
    · cases h
    · rename_i s1 hstep
      rcases release_one_context_ok_parts hstep with ⟨hrep, hasg, _, _⟩
      have hnd1 : (s1.compact_task_assignment.map Prod.fst).Nodup := by
        apply keys_nodup_of_sublist _ hnd
        rw [hasg]
        exact foldl_aremove_sublist _ _
      by_cases hcc : p.2.context_id = c0
      · -- `p`'s task is reported when `c0` is processed; afterwards pending
        -- sets only shrink.
        have howned : p.2 ∈ (s.compact_task_assignment.filter
            (fun q => q.2.context_id = c0)).map Prod.snd :=
          List.mem_map.mpr ⟨p, List.mem_filter.mpr ⟨hp, by simp [hcc]⟩, rfl⟩
        rcases release_loop_shrink rest s1 s' h t.compaction_group_id st hst
          with ⟨st1, hst1, hsub1⟩
        intro hcmem
        exact report_all_removed _ _ _ hrep p.2 howned t ht st1 hst1
          (hsub1 t.task_id hcmem)
      · have hcrest : c ∈ rest := by
          rcases List.mem_cons.mp hc with hc1 | hc1
          · exfalso; rw [hc1] at hctx; exact hcc hctx
          · exact hc1
        have hp1 := release_one_context_assignment_kept hnd hstep p hp hcc
        exact ih s1 s' hnd1 h c hcrest p hp1 hctx t ht st hst

theorem release_loop_preserves (ids : List Nat) :
    ∀ s s' : HummockState,
      (s.compact_task_assignment.map Prod.fst).Nodup →
      release_contexts_loop s ids = .ok s' →
      ∀ c, c ∉ ids →
        alookup s'.pinned_versions c = alookup s.pinned_versions c ∧
        alookup s'.pinned_snapshots c = alookup s.pinned_snapshots c ∧
        ∀ p : Nat × CompactTaskAssignment, p.2.context_id = c →
          (p ∈ s'.compact_task_assignment ↔
            p ∈ s.compact_task_assignment) := by
  induction ids with
  | nil =>
    intro s s' _ h c _
    simp only [release_contexts_loop] at h
    cases h
    exact ⟨rfl, rfl, fun _ _ => Iff.rfl⟩
  | cons c0 rest ih =>
    intro s s' hnd h c hc
    have hc0 : c ≠ c0 := fun hh => hc (hh ▸ List.mem_cons_self c0 rest)
    have hcrest : c ∉ rest := fun hh => hc (List.mem_cons_of_mem c0 hh)
    simp only [release_contexts_loop] at h
    split at h
    · cases h
    · rename_i s1 hstep
      rcases release_one_context_ok_parts hstep with ⟨_, hasg, hpv, hps⟩
      have hnd1 : (s1.compact_task_assignment.map Prod.fst).Nodup := by
        apply keys_nodup_of_sublist _ hnd
        rw [hasg]
        exact foldl_aremove_sublist _ _
      rcases ih s1 s' hnd1 h c hcrest with ⟨ipv, ips, iasg⟩
      refine ⟨?_, ?_, ?_⟩
      · rw [ipv, hpv, alookup_aremove_ne _ _ _ hc0]
      · rw [ips, hps, alookup_aremove_ne _ _ _ hc0]
      · intro p hctx
        rw [iasg p hctx]
        constructor
        · intro hp1
          exact (release_one_context_assignment_gone hstep p hp1).1
        · intro hp
          exact release_one_context_assignment_kept hnd hstep p hp
            (by rw [hctx]; exact hc0)

theorem release_loop_error (ids : List Nat) :
    ∀ (s : HummockState) (e : ReleaseError),
      (∀ p ∈ s.compact_task_assignment, p.2.compact_task ≠ none) →
      release_contexts_loop s ids = .error e →
      (∃ g, e = .invalidCompactionGroup g) ∧
      ∃ c ∈ ids, ∃ p ∈ s.compact_task_assignment, p.2.context_id = c ∧
        ∃ t, p.2.compact_task = some t ∧
          alookup s.compaction_statuses t.compaction_group_id = none := by
  induction ids with
  | nil =>
    intro s e _ h
    simp only [release_contexts_loop] at h
    cases h
  | cons c0 rest ih =>
    intro s e htasks h
    simp only [release_contexts_loop] at h
    split at h
    · rename_i e0 hstep
      cases h
      have hrep := release_one_context_error_elim hstep
      have howned : ∀ a ∈ (s.compact_task_assignment.filter
          (fun p => p.2.context_id = c0)).map Prod.snd,
          a.compact_task ≠ none := by
        intro a ha
        rcases List.mem_map.mp ha with ⟨p, hpmem, hpa⟩
        rw [← hpa]
        exact htasks p (List.mem_of_mem_filter hpmem)
      refine ⟨report_all_error_invalid _ _ _ howned hrep, ?_⟩
      rcases report_all_error_bad _ _ _ howned hrep
        with ⟨a, ha, t, ht, hnone⟩
      rcases List.mem_map.mp ha with ⟨p, hpmem, hpa⟩
      refine ⟨c0, List.mem_cons_self c0 rest, p,
        List.mem_of_mem_filter hpmem, ?_, t, ?_, hnone⟩
      · have := (List.mem_filter.mp hpmem).2
        simpa using this
      · rw [hpa]; exact ht
    · rename_i s1 hstep
      rcases release_one_context_ok_parts hstep with ⟨hrep, hasg, _, _⟩
      have htasks1 : ∀ p ∈ s1.compact_task_assignment,
          p.2.compact_task ≠ none := by
        intro p hp
        exact htasks p (release_one_context_assignment_gone hstep p hp).1
      rcases ih s1 e htasks1 h with ⟨hinv, c, hc, p, hp, hctx, t, ht, hnone⟩
      refine ⟨hinv, c, List.mem_cons_of_mem c0 hc,
        p, (release_one_context_assignment_gone hstep p hp).1,
        hctx, t, ht, ?_⟩
      rw [alookup_eq_none_iff_keys] at hnone ⊢
      rw [← report_all_keys _ _ _ hrep]
      exact hnone

theorem release_loop_error_of_bad (ids : List Nat) :
    ∀ s : HummockState,
      (s.compact_task_assignment.map Prod.fst).Nodup →
      (∃ c ∈ ids, ∃ p ∈ s.compact_task_assignment, p.2.context_id = c ∧
        ∃ t, p.2.compact_task = some t ∧
          alookup s.compaction_statuses t.compaction_group_id = none) →
      ∃ e, release_contexts_loop s ids = .error e := by
  induction ids with
  | nil =>
    intro s _ hbad
    rcases hbad with ⟨c, hc, _⟩
    cases hc
  | cons c0 rest ih =>
    intro s hnd hbad
    cases hstep : release_one_context s c0 with
    | error e =>
      exact ⟨e, by simp only [release_contexts_loop, hstep]⟩
    | ok s1 =>
      rcases hbad with ⟨c, hc, p, hp, hctx, t, ht, hnone⟩
      rcases release_one_context_ok_parts hstep with ⟨hrep, hasg, _, _⟩
      by_cases hcc : p.2.context_id = c0
      · exfalso
        have howned : p.2 ∈ (s.compact_task_assignment.filter
            (fun q => q.2.context_id = c0)).map Prod.snd :=
          List.mem_map.mpr ⟨p, List.mem_filter.mpr ⟨hp, by simp [hcc]⟩, rfl⟩
        exact report_all_found _ _ _ hrep p.2 howned t ht hnone
      · have hcrest : c ∈ rest := by
          rcases List.mem_cons.mp hc with hc1 | hc1
          · exfalso; rw [hc1] at hctx; exact hcc hctx
          · exact hc1
        have hnd1 : (s1.compact_task_assignment.map Prod.fst).Nodup := by
          apply keys_nodup_of_sublist _ hnd
          rw [hasg]
          exact foldl_aremove_sublist _ _
        have hp1 := release_one_context_assignment_kept hnd hstep p hp hcc
        have hnone1 : alookup s1.compaction_statuses
            t.compaction_group_id = none := by
          rw [alookup_eq_none_iff_keys] at hnone ⊢
          rw [report_all_keys _ _ _ hrep]
          exact hnone
        rcases ih s1 hnd1 ⟨c, hcrest, p, hp1, hctx, t, ht, hnone1⟩
          with ⟨e, he⟩
        exact ⟨e, by simp only [release_contexts_loop, hstep, he]⟩

theorem release_one_context_noop {s : HummockState} {c : Nat}
    (hasg : ∀ p ∈ s.compact_task_assignment, p.2.context_id ≠ c)
    (hpv : alookup s.pinned_versions c = none)
    (hps : alookup s.pinned_snapshots c = none) :
    release_one_context s c = .ok s := by
  have hfil : s.compact_task_assignment.filter
      (fun p => p.2.context_id = c) = [] := by
    rw [List.filter_eq_nil_iff]
    intro p hp
    simpa using hasg p hp
  unfold release_one_context
  rw [hfil]
  simp only [List.map_nil, report_all, List.foldl_nil]
  rw [aremove_of_not_mem _ _ (by rw [← alookup_eq_none_iff]; exact hpv),
      aremove_of_not_mem _ _ (by rw [← alookup_eq_none_iff]; exact hps)]

theorem release_loop_noop (ids : List Nat) :
    ∀ s : HummockState,
      (∀ c ∈ ids,
        (∀ p ∈ s.compact_task_assignment, p.2.context_id ≠ c) ∧
        alookup s.pinned_versions c = none ∧
        alookup s.pinned_snapshots c = none) →
      release_contexts_loop s ids = .ok s := by
  induction ids with
  | nil =>
    intro s _
    rfl
  | cons c0 rest ih =>
    intro s hall
    rcases hall c0 (List.mem_cons_self c0 rest) with ⟨hasg, hpv, hps⟩
    have hstep := release_one_context_noop hasg hpv hps
    simp only [release_contexts_loop, hstep]
    exact ih s (fun c hc => hall c (List.mem_cons_of_mem c0 hc))

end Hummock


namespace Compactor

theorem foldl_append_flatten {A B : Type} (f : A → List B) :
    ∀ (ls : List A) (acc : List B),
      ls.foldl (fun a x => a ++ f x) acc = acc ++ (ls.map f).flatten := by
  intro ls
  induction ls with
  | nil => intro acc; simp
  | cons x rest ih =>
    intro acc
    simp only [List.foldl_cons, List.map_cons, List.flatten_cons]
    rw [ih (acc ++ f x), List.append_assoc]

theorem build_sst_iter_eq (r : CompactorRunner) :
    r.build_sst_iter
      = (r.compact_task.input_ssts.map (level_runs r.key_range)).flatten := by
  unfold CompactorRunner.build_sst_iter
  rw [foldl_append_flatten]
  rfl

theorem mem_of_mem_level_runs {kr : KeyRange} {level : InputLevel}
    {run : List TableInfo} (hrun : run ∈ level_runs kr level) :
    ∀ info ∈ run, info ∈ level.table_infos ∧
      fullKeyOverlap kr (KeyRange.ofProto info.key_range) = true := by
  intro info hinfo
  unfold level_runs at hrun
  split at hrun
  · cases hrun
  · split at hrun
    · rcases List.mem_singleton.mp hrun with rfl
      rcases List.mem_filter.mp hinfo with ⟨hmem, hov⟩
      exact ⟨hmem, hov⟩
    · rcases List.mem_map.mp hrun with ⟨info0, hinfo0, rfl⟩
      rcases List.mem_singleton.mp hinfo with rfl
      rcases List.mem_filter.mp hinfo0 with ⟨hmem, hov⟩
      exact ⟨hmem, hov⟩

theorem isEmpty_false_of_ne_nil {A : Type} {l : List A} (h : l ≠ []) :
    l.isEmpty = false := by
  cases l with
  | nil => exact absurd rfl h
  | cons a rest => rfl

theorem collect_table_mono
    (sstable_store : TableInfo → Except StorageError SSTable)
    (filter : FullKey → Bool) (infos : List TableInfo) :
    ∀ builder builder',
      collect_table_tombstones sstable_store filter builder infos
        = .ok builder' →
      ∀ t ∈ builder.tombstones, t ∈ builder'.tombstones := by
  induction infos with
  | nil =>
    intro builder builder' h t ht
    cases h
    exact ht
  | cons info rest ih =>
    intro builder builder' h t ht
    simp only [collect_table_tombstones] at h
    split at h
    · cases h
    · rename_i table hload
      refine ih _ _ h t ?_
      simp only [CompactionDeleteRangesBuilder.add_tombstone]
      exact List.mem_append_left _ ht

theorem collect_table_sources
    (sstable_store : TableInfo → Except StorageError SSTable)
    (filter : FullKey → Bool) (infos : List TableInfo) :
    ∀ builder builder',
      collect_table_tombstones sstable_store filter builder infos
        = .ok builder' →
      ∀ t ∈ builder'.tombstones,
        t ∈ builder.tombstones ∨
        ∃ info ∈ infos, ∃ tbl, sstable_store info = .ok tbl ∧
          t ∈ tbl.tombstones ∧
          filter ⟨t.start_user_key, t.sequence⟩ = false := by
  induction infos with
  | nil =>
    intro builder builder' h t ht
    cases h
    exact Or.inl ht
  | cons info rest ih =>
    intro builder builder' h t ht
    simp only [collect_table_tombstones] at h
    split at h
    · cases h
    · rename_i table hload
      rcases ih _ _ h t ht with hin | ⟨info1, hinfo1, tbl, hload1, hmem, hfil⟩
      · simp only [CompactionDeleteRangesBuilder.add_tombstone] at hin
        rcases List.mem_append.mp hin with hin | hin
        · exact Or.inl hin
        · rcases List.mem_filter.mp hin with ⟨hmem, hfil⟩
          refine Or.inr ⟨info, List.mem_cons_self info rest, table, hload,
            hmem, ?_⟩
          simpa using hfil
      · exact Or.inr ⟨info1, List.mem_cons_of_mem info hinfo1, tbl, hload1,
          hmem, hfil⟩

theorem collect_table_complete
    (sstable_store : TableInfo → Except StorageError SSTable)
    (filter : FullKey → Bool) (infos : List TableInfo) :
    ∀ builder builder',
      collect_table_tombstones sstable_store filter builder infos
        = .ok builder' →
      ∀ info ∈ infos, ∀ tbl, sstable_store info = .ok tbl →
        ∀ t ∈ tbl.tombstones,
          filter ⟨t.start_user_key, t.sequence⟩ = false →
            t ∈ builder'.tombstones := by
  induction infos with
  | nil =>
    intro builder builder' _ info hinfo
    cases hinfo
  | cons info0 rest ih =>
    intro builder builder' h info hinfo tbl hload t ht hfil
    simp only [collect_table_tombstones] at h
    split at h
    · cases h
    · rename_i table hload0
      rcases List.mem_cons.mp hinfo with hinfo1 | hinfo1
      · subst hinfo1
        rw [hload] at hload0
        cases hload0
        refine collect_table_mono sstable_store filter rest _ _ h t ?_
        simp only [CompactionDeleteRangesBuilder.add_tombstone]
        refine List.mem_append_right _ (List.mem_filter.mpr ⟨ht, ?_⟩)
        simp [hfil]
      · exact ih _ _ h info hinfo1 tbl hload t ht hfil

theorem collect_level_mono
    (sstable_store : TableInfo → Except StorageError SSTable)
    (filter : FullKey → Bool) (levels : List InputLevel) :
    ∀ builder builder',
      collect_level_tombstones sstable_store filter builder levels
        = .ok builder' →
      ∀ t ∈ builder.tombstones, t ∈ builder'.tombstones := by
  induction levels with
  | nil =>
    intro builder builder' h t ht
    cases h
    exact ht
  | cons level rest ih =>
    intro builder builder' h t ht
    simp only [collect_level_tombstones] at h
    split at h
    · exact ih _ _ h t ht
    · split at h
      · cases h
      · rename_i builder1 htab
        exact ih _ _ h t
          (collect_table_mono sstable_store filter _ _ _ htab t ht)

theorem collect_level_sources
    (sstable_store : TableInfo → Except StorageError SSTable)
    (filter : FullKey → Bool) (levels : List InputLevel) :
    ∀ builder builder',
      collect_level_tombstones sstable_store filter builder levels
        = .ok builder' →
      ∀ t ∈ builder'.tombstones,
        t ∈ builder.tombstones ∨
        ∃ level ∈ levels, ∃ info ∈ level.table_infos, ∃ tbl,
          sstable_store info = .ok tbl ∧ t ∈ tbl.tombstones ∧
          filter ⟨t.start_user_key, t.sequence⟩ = false := by
  induction levels with
  | nil =>
    intro builder builder' h t ht
    cases h
    exact Or.inl ht
  | cons level rest ih =>
    intro builder builder' h t ht
    simp only [collect_level_tombstones] at h
    split at h
    · rcases ih _ _ h t ht with hin | ⟨lvl, hlvl, rest_src⟩
      · exact Or.inl hin
      · exact Or.inr ⟨lvl, List.mem_cons_of_mem level hlvl, rest_src⟩
    · split at h
      · cases h
      · rename_i builder1 htab
        rcases ih _ _ h t ht with hin | ⟨lvl, hlvl, rest_src⟩
        · rcases collect_table_sources sstable_store filter _ _ _ htab t hin
            with hin1 | ⟨info, hinfo, tbl, hload, hmem, hfil⟩
          · exact Or.inl hin1
          · exact Or.inr ⟨level, List.mem_cons_self level rest,
              info, hinfo, tbl, hload, hmem, hfil⟩
        · exact Or.inr ⟨lvl, List.mem_cons_of_mem level hlvl, rest_src⟩

theorem collect_level_complete
    (sstable_store : TableInfo → Except StorageError SSTable)
    (filter : FullKey → Bool) (levels : List InputLevel) :
    ∀ builder builder',
      collect_level_tombstones sstable_store filter builder levels
        = .ok builder' →
      ∀ level ∈ levels, ∀ info ∈ level.table_infos,
        ∀ tbl, sstable_store info = .ok tbl →
          ∀ t ∈ tbl.tombstones,
            filter ⟨t.start_user_key, t.sequence⟩ = false →
              t ∈ builder'.tombstones := by
  induction levels with
  | nil =>
    intro builder builder' _ level hlevel
    cases hlevel
  | cons level0 rest ih =>
    intro builder builder' h level hlevel info hinfo tbl hload t ht hfil
    simp only [collect_level_tombstones] at h
    split at h
    · rename_i hempty
      rcases List.mem_cons.mp hlevel with hlevel1 | hlevel1
      · subst hlevel1
        rw [List.isEmpty_iff] at hempty
        rw [hempty] at hinfo
        cases hinfo
      · exact ih _ _ h level hlevel1 info hinfo tbl hload t ht hfil
    · split at h
      · cases h
      · rename_i builder1 htab
        rcases List.mem_cons.mp hlevel with hlevel1 | hlevel1
        · subst hlevel1
          refine collect_level_mono sstable_store filter rest _ _ h t ?_
          exact collect_table_complete sstable_store filter _ _ _ htab
            info hinfo tbl hload t ht hfil
        · exact ih _ _ h level hlevel1 info hinfo tbl hload t ht hfil

end Compactor


/-- C10: after `resolve`, `actor_ids_to_collect` is `none` exactly when the
node has no entry in `actor_infos.actor_maps`, and otherwise returns that
node's stored actor list unchanged; `actor_ids_to_send` behaves the same
over `source_actor_maps`. -/
theorem barrier_resolve_actor_ids_spec (all_nodes : List Barrier.WorkerNode)
    (actor_infos : Barrier.ActorInfos) (node_id : Nat) :
    ((Barrier.BarrierActorInfo.resolve all_nodes actor_infos).actor_ids_to_collect node_id
      = Hummock.alookup actor_infos.actor_maps node_id) ∧
    ((Barrier.BarrierActorInfo.resolve all_nodes actor_infos).actor_ids_to_send node_id
      = Hummock.alookup actor_infos.source_actor_maps node_id) :=
  ⟨rfl, rfl⟩

/-- C1: after a successful `release_contexts(context_ids)`, no task
assignment, pinned-version entry or pinned-snapshot entry references any
released context id; no compaction-status entry still tracks a task that
an assignment links to a released context (indeed no such assignment
survives), and every task the released contexts had assigned is gone from
its group's pending bookkeeping. -/
theorem release_contexts_clears_all_references
    (s s' : Hummock.HummockState) (context_ids : List Nat)
    (hnd : (s.compact_task_assignment.map Prod.fst).Nodup)
    (hok : Hummock.release_contexts s context_ids = .ok s') :
    ∀ c ∈ context_ids,
      (∀ p ∈ s'.compact_task_assignment, p.2.context_id ≠ c) ∧
      Hummock.alookup s'.pinned_versions c = none ∧
      Hummock.alookup s'.pinned_snapshots c = none ∧
      (∀ gp ∈ s'.compaction_statuses, ∀ tid ∈ gp.2.pending_tasks,
        ¬ ∃ p ∈ s'.compact_task_assignment,
            p.1 = tid ∧ p.2.context_id = c) ∧
      (∀ p ∈ s.compact_task_assignment, p.2.context_id = c →
        ∀ t, p.2.compact_task = some t →
          ∀ st, Hummock.alookup s'.compaction_statuses
              t.compaction_group_id = some st →
            t.task_id ∉ st.pending_tasks) := by
  intro c hc
  rcases Hummock.release_loop_clears context_ids s s' hok c hc
    with ⟨h1, h2, h3⟩
  refine ⟨h1, h2, h3, ?_, ?_⟩
  · rintro gp _ tid _ ⟨p, hp, _, hctx⟩
    exact h1 p hp hctx
  · intro p hp hctx t ht st hst
    exact Hummock.release_loop_removed context_ids s s' hnd hok
      c hc p hp hctx t ht st hst

/-- Witness for C1 at `exampleState`, releasing context 1. -/
theorem release_contexts_clears_all_references_witness :
    ((Hummock.exampleState.compact_task_assignment.map Prod.fst).Nodup ∧
      Hummock.release_contexts Hummock.exampleState [1]
        = .ok Hummock.exampleStateReleased) ∧
    (∀ c ∈ [1],
      (∀ p ∈ Hummock.exampleStateReleased.compact_task_assignment,
        p.2.context_id ≠ c) ∧
      Hummock.alookup Hummock.exampleStateReleased.pinned_versions c
        = none ∧
      Hummock.alookup Hummock.exampleStateReleased.pinned_snapshots c
        = none ∧
      (∀ gp ∈ Hummock.exampleStateReleased.compaction_statuses,
        ∀ tid ∈ gp.2.pending_tasks,
          ¬ ∃ p ∈ Hummock.exampleStateReleased.compact_task_assignment,
              p.1 = tid ∧ p.2.context_id = c) ∧
      (∀ p ∈ Hummock.exampleState.compact_task_assignment,
        p.2.context_id = c →
        ∀ t, p.2.compact_task = some t →
          ∀ st, Hummock.alookup
              Hummock.exampleStateReleased.compaction_statuses
              t.compaction_group_id = some st →
            t.task_id ∉ st.pending_tasks)) :=
  ⟨⟨by decide, rfl⟩,
    release_contexts_clears_all_references Hummock.exampleState
      Hummock.exampleStateReleased [1] (by decide) rfl⟩

/-- C2: if `release_contexts` returns an error, the observed state is
identical to the state before the call in all four maps — the staged
removal batch commits atomically or not at all. -/
theorem release_contexts_error_is_atomic
    (s : Hummock.HummockState) (context_ids : List Nat)
    (e : Hummock.ReleaseError)
    (herr : Hummock.release_contexts s context_ids = .error e) :
    Hummock.release_contexts_exec s context_ids = s ∧
    (Hummock.release_contexts_exec s context_ids).compaction_statuses
      = s.compaction_statuses ∧
    (Hummock.release_contexts_exec s context_ids).compact_task_assignment
      = s.compact_task_assignment ∧
    (Hummock.release_contexts_exec s context_ids).pinned_versions
      = s.pinned_versions ∧
    (Hummock.release_contexts_exec s context_ids).pinned_snapshots
      = s.pinned_snapshots := by
  unfold Hummock.release_contexts_exec
  rw [herr]
  exact ⟨rfl, rfl, rfl, rfl, rfl⟩

/-- Witness for C2 at `badGroupState`: releasing context 1 fails with
`InvalidCompactionGroup 10`, and the observed state is unchanged. -/
theorem release_contexts_error_is_atomic_witness :
    Hummock.release_contexts Hummock.badGroupState [1]
      = .error (.invalidCompactionGroup 10) ∧
    Hummock.release_contexts_exec Hummock.badGroupState [1]
      = Hummock.badGroupState :=
  ⟨rfl,
    (release_contexts_error_is_atomic Hummock.badGroupState [1]
      (.invalidCompactionGroup 10) rfl).1⟩

/-- C4: `release_contexts` is idempotent — a second call with the same id
set on the already-released state succeeds and leaves the state exactly as
it was after the first call (removing an absent id is a no-op). -/
theorem release_contexts_idempotent
    (s s' : Hummock.HummockState) (context_ids : List Nat)
    (hok : Hummock.release_contexts s context_ids = .ok s') :
    Hummock.release_contexts s' context_ids = .ok s' := by
  apply Hummock.release_loop_noop
  intro c hc
  exact Hummock.release_loop_clears context_ids s s' hok c hc

/-- Witness for C4 at `exampleState`, releasing context 1 twice. -/
theorem release_contexts_idempotent_witness :
    Hummock.release_contexts Hummock.exampleState [1]
      = .ok Hummock.exampleStateReleased ∧
    Hummock.release_contexts Hummock.exampleStateReleased [1]
      = .ok Hummock.exampleStateReleased :=
  ⟨rfl,
    release_contexts_idempotent Hummock.exampleState
      Hummock.exampleStateReleased [1] rfl⟩

/-- C7: provided every assignment carries a task descriptor (the source
`expect`s this), `release_contexts` fails exactly when some task assignment
owned by one of the given context ids references a compaction group with no
entry in the compaction-statuses map, and the error is always
`InvalidCompactionGroup`. -/
theorem release_contexts_error_iff_unknown_group
    (s : Hummock.HummockState) (context_ids : List Nat)
    (htasks : ∀ p ∈ s.compact_task_assignment, p.2.compact_task ≠ none)
    (hnd : (s.compact_task_assignment.map Prod.fst).Nodup) :
    ((∃ e, Hummock.release_contexts s context_ids = .error e) ↔
      ∃ c ∈ context_ids, ∃ p ∈ s.compact_task_assignment,
        p.2.context_id = c ∧ ∃ t, p.2.compact_task = some t ∧
          Hummock.alookup s.compaction_statuses t.compaction_group_id
            = none) ∧
    (∀ e, Hummock.release_contexts s context_ids = .error e →
      ∃ g, e = .invalidCompactionGroup g) := by
  refine ⟨⟨?_, ?_⟩, ?_⟩
  · rintro ⟨e, he⟩
    exact (Hummock.release_loop_error context_ids s e htasks he).2
  · intro hbad
    exact Hummock.release_loop_error_of_bad context_ids s hnd hbad
  · intro e he
    exact (Hummock.release_loop_error context_ids s e htasks he).1

/-- Witness for C7 at `badGroupState`, releasing context 1. -/
theorem release_contexts_error_iff_unknown_group_witness :
    ((∀ p ∈ Hummock.badGroupState.compact_task_assignment,
        p.2.compact_task ≠ none) ∧
      (Hummock.badGroupState.compact_task_assignment.map Prod.fst).Nodup) ∧
    (((∃ e, Hummock.release_contexts Hummock.badGroupState [1]
        = .error e) ↔
      ∃ c ∈ [1], ∃ p ∈ Hummock.badGroupState.compact_task_assignment,
        p.2.context_id = c ∧ ∃ t, p.2.compact_task = some t ∧
          Hummock.alookup Hummock.badGroupState.compaction_statuses
            t.compaction_group_id = none) ∧
    (∀ e, Hummock.release_contexts Hummock.badGroupState [1]
        = .error e →
      ∃ g, e = .invalidCompactionGroup g)) :=
  ⟨⟨by decide, by decide⟩,
    release_contexts_error_iff_unknown_group Hummock.badGroupState [1]
      (by decide) (by decide)⟩

/-- C3: `release_invalid_contexts` returns exactly the context ids that are
referenced by some task assignment, pinned version or pinned snapshot and
fail `check_context`; it releases exactly that set (the returned state is
`release_contexts` of it), and every entry held by a context passing
`check_context` is left untouched. -/
theorem release_invalid_contexts_spec
    (check_context : Nat → Bool) (s s' : Hummock.HummockState)
    (ids : List Nat)
    (hnd : (s.compact_task_assignment.map Prod.fst).Nodup)
    (hok : Hummock.release_invalid_contexts check_context s
      = .ok (ids, s')) :
    (∀ c, c ∈ ids ↔
      (((∃ p ∈ s.compact_task_assignment, p.2.context_id = c) ∨
        (∃ p ∈ s.pinned_versions, p.1 = c) ∨
        (∃ p ∈ s.pinned_snapshots, p.1 = c)) ∧ check_context c = false)) ∧
    Hummock.release_contexts s ids = .ok s' ∧
    (∀ c, check_context c = true →
      Hummock.alookup s'.pinned_versions c
        = Hummock.alookup s.pinned_versions c ∧
      Hummock.alookup s'.pinned_snapshots c
        = Hummock.alookup s.pinned_snapshots c ∧
      ∀ p : Nat × Hummock.CompactTaskAssignment, p.2.context_id = c →
        (p ∈ s'.compact_task_assignment ↔
          p ∈ s.compact_task_assignment)) := by
  simp only [Hummock.release_invalid_contexts] at hok
  split at hok
  · rename_i s1 hrel
    cases hok
    refine ⟨?_, hrel, ?_⟩
    · intro c
      simp only [List.mem_filter, List.mem_dedup, List.mem_append,
        List.mem_map, Bool.not_eq_eq_eq_not, Bool.not_true]
      constructor
      · rintro ⟨hmem, hchk⟩
        refine ⟨?_, hchk⟩
        rcases hmem with (⟨p, hp, hpc⟩ | ⟨p, hp, hpc⟩) | ⟨p, hp, hpc⟩
        · exact Or.inl ⟨p, hp, hpc⟩
        · exact Or.inr (Or.inl ⟨p, hp, hpc⟩)
        · exact Or.inr (Or.inr ⟨p, hp, hpc⟩)
      · rintro ⟨hmem, hchk⟩
        refine ⟨?_, hchk⟩
        rcases hmem with ⟨p, hp, hpc⟩ | ⟨p, hp, hpc⟩ | ⟨p, hp, hpc⟩
        · exact Or.inl (Or.inl ⟨p, hp, hpc⟩)
        · exact Or.inl (Or.inr ⟨p, hp, hpc⟩)
        · exact Or.inr ⟨p, hp, hpc⟩
    · intro c hchk
      have hnotin : c ∉ (((s.compact_task_assignment.map
          (fun p => p.2.context_id))
          ++ s.pinned_versions.map Prod.fst
          ++ s.pinned_snapshots.map Prod.fst).dedup).filter
            (fun c => !check_context c) := by
        intro hc
        rcases List.mem_filter.mp hc with ⟨_, hfalse⟩
        rw [hchk] at hfalse
        cases hfalse
      exact Hummock.release_loop_preserves _ s s' hnd hrel c hnotin
  · cases hok

/-- Witness for C3 at `exampleState` with context 1 valid and context 2
invalid: exactly context 2 is reaped and context 1's entries survive. -/
theorem release_invalid_contexts_spec_witness :
    ((Hummock.exampleState.compact_task_assignment.map Prod.fst).Nodup ∧
      Hummock.release_invalid_contexts (fun c => c == 1)
        Hummock.exampleState = .ok ([2], Hummock.exampleStateReaped)) ∧
    ((∀ c, c ∈ [2] ↔
      (((∃ p ∈ Hummock.exampleState.compact_task_assignment,
          p.2.context_id = c) ∨
        (∃ p ∈ Hummock.exampleState.pinned_versions, p.1 = c) ∨
        (∃ p ∈ Hummock.exampleState.pinned_snapshots, p.1 = c)) ∧
        (c == 1) = false)) ∧
    Hummock.release_contexts Hummock.exampleState [2]
      = .ok Hummock.exampleStateReaped ∧
    (∀ c, (c == 1) = true →
      Hummock.alookup Hummock.exampleStateReaped.pinned_versions c
        = Hummock.alookup Hummock.exampleState.pinned_versions c ∧
      Hummock.alookup Hummock.exampleStateReaped.pinned_snapshots c
        = Hummock.alookup Hummock.exampleState.pinned_snapshots c ∧
      ∀ p : Nat × Hummock.CompactTaskAssignment, p.2.context_id = c →
        (p ∈ Hummock.exampleStateReaped.compact_task_assignment ↔
          p ∈ Hummock.exampleState.compact_task_assignment))) :=
  ⟨⟨by decide, rfl⟩,
    release_invalid_contexts_spec (fun c => c == 1) Hummock.exampleState
      Hummock.exampleStateReaped [2] (by decide) rfl⟩

/-- C5: `build_delete_range_iter` folds, over every input table of every
input level, the table's represented tombstones minus those whose start key
(with its sequence) the compaction filter accepts, into one aggregator
carrying the task's `gc_delete_keys` flag; on the two-tombstone example
with `existing_table_ids = [2]` and a filter rejecting table-1 keys, the
full-range `get_tombstone_between` query yields exactly table 2's monotonic
events. -/
theorem build_delete_range_iter_spec
    (task : Compactor.CompactTask)
    (sstable_store : Compactor.TableInfo →
      Except Compactor.StorageError Compactor.SSTable)
    (filter : Compactor.FullKey → Bool)
    (agg : Compactor.CompactionDeleteRanges)
    (hok : Compactor.build_delete_range_iter task sstable_store filter
      = .ok agg) :
    agg.gc_delete_keys = task.gc_delete_keys ∧
    (∀ t ∈ agg.tombstones,
      filter ⟨t.start_user_key, t.sequence⟩ = false) ∧
    (∀ t ∈ agg.tombstones, ∃ level ∈ task.input_ssts,
      ∃ info ∈ level.table_infos, ∃ tbl, sstable_store info = .ok tbl ∧
        t ∈ tbl.tombstones) ∧
    (∀ level ∈ task.input_ssts, ∀ info ∈ level.table_infos,
      ∀ tbl, sstable_store info = .ok tbl → ∀ t ∈ tbl.tombstones,
        filter ⟨t.start_user_key, t.sequence⟩ = false →
          t ∈ agg.tombstones) ∧
    Compactor.delete_range_example_result
      = Compactor.create_monotonic_events [Compactor.tombstoneTable2] := by
  unfold Compactor.build_delete_range_iter at hok
  split at hok
  · cases hok
  · rename_i builder hcol
    cases hok
    refine ⟨rfl, ?_, ?_, ?_, by decide⟩
    · intro t ht
      rcases Compactor.collect_level_sources sstable_store filter
          task.input_ssts _ _ hcol t ht
        with hin | ⟨_, _, _, _, _, _, _, hfil⟩
      · cases hin
      · exact hfil
    · intro t ht
      rcases Compactor.collect_level_sources sstable_store filter
          task.input_ssts _ _ hcol t ht
        with hin | ⟨level, hlevel, info, hinfo, tbl, hload, hmem, _⟩
      · cases hin
      · exact ⟨level, hlevel, info, hinfo, tbl, hload, hmem⟩
    · intro level hlevel info hinfo tbl hload t ht hfil
      exact Compactor.collect_level_complete sstable_store filter
        task.input_ssts _ _ hcol level hlevel info hinfo tbl hload t ht hfil

/-- Witness for C5 on the two-tombstone example. -/
theorem build_delete_range_iter_spec_witness :
    Compactor.build_delete_range_iter Compactor.deleteRangeTask
      Compactor.deleteRangeStore
      (Compactor.state_clean_up_filter
        Compactor.deleteRangeTask.existing_table_ids)
      = .ok ⟨[Compactor.tombstoneTable2], false⟩ ∧
    (⟨[Compactor.tombstoneTable2], false⟩ :
        Compactor.CompactionDeleteRanges).gc_delete_keys
      = Compactor.deleteRangeTask.gc_delete_keys ∧
    (∀ t ∈ (⟨[Compactor.tombstoneTable2], false⟩ :
        Compactor.CompactionDeleteRanges).tombstones,
      Compactor.state_clean_up_filter
        Compactor.deleteRangeTask.existing_table_ids
        ⟨t.start_user_key, t.sequence⟩ = false) ∧
    Compactor.delete_range_example_result
      = Compactor.create_monotonic_events [Compactor.tombstoneTable2] :=
  by
    have h := build_delete_range_iter_spec Compactor.deleteRangeTask
      Compactor.deleteRangeStore
      (Compactor.state_clean_up_filter
        Compactor.deleteRangeTask.existing_table_ids)
      ⟨[Compactor.tombstoneTable2], false⟩ rfl
    exact ⟨rfl, h.1, h.2.1, h.2.2.2.2⟩

/-- C6: every table placed in a merge-iterator run comes from an input
level and intersects the split's key range; a non-empty level marked
non-overlapping contributes its intersecting tables as one concatenated
run, any other non-empty level contributes each intersecting table as its
own run; and on the concrete non-overlapping level `{T1, T2, T3, T4}` with
a split overlapping only `{T2, T3}` (`can_concat` holding), exactly T2's
and T3's entries are emitted, in key order. -/
theorem build_sst_iter_spec (r : Compactor.CompactorRunner) :
    (∀ run ∈ r.build_sst_iter, ∀ info ∈ run,
      (∃ level ∈ r.compact_task.input_ssts, info ∈ level.table_infos) ∧
      Compactor.fullKeyOverlap r.key_range
        (Compactor.KeyRange.ofProto info.key_range) = true) ∧
    (∀ level ∈ r.compact_task.input_ssts, level.table_infos ≠ [] →
      level.level_type = Compactor.nonoverlappingLevelType →
      level.table_infos.filter (fun info =>
        Compactor.fullKeyOverlap r.key_range
          (Compactor.KeyRange.ofProto info.key_range)) ∈ r.build_sst_iter) ∧
    (∀ level ∈ r.compact_task.input_ssts, level.table_infos ≠ [] →
      level.level_type ≠ Compactor.nonoverlappingLevelType →
      ∀ info ∈ level.table_infos,
        Compactor.fullKeyOverlap r.key_range
          (Compactor.KeyRange.ofProto info.key_range) = true →
          [info] ∈ r.build_sst_iter) ∧
    (Compactor.can_concat Compactor.mergeLevel.table_infos = true ∧
      Compactor.mergeRunner.build_sst_iter
        = [[Compactor.mergeTable2, Compactor.mergeTable3]] ∧
      Compactor.CompactorRunner.emitted_entries Compactor.mergeRunner
          Compactor.mergeStore
        = (Compactor.mergeStore Compactor.mergeTable2).entries
          ++ (Compactor.mergeStore Compactor.mergeTable3).entries) := by
  refine ⟨?_, ?_, ?_, by decide, by decide, by decide⟩
  · intro run hrun info hinfo
    rw [Compactor.build_sst_iter_eq] at hrun
    rcases List.mem_flatten.mp hrun with ⟨runs, hruns, hrun1⟩
    rcases List.mem_map.mp hruns with ⟨level, hlevel, rfl⟩
    rcases Compactor.mem_of_mem_level_runs hrun1 info hinfo
      with ⟨hmem, hov⟩
    exact ⟨⟨level, hlevel, hmem⟩, hov⟩
  · intro level hlevel hne htype
    rw [Compactor.build_sst_iter_eq]
    refine List.mem_flatten.mpr ⟨Compactor.level_runs r.key_range level,
      List.mem_map.mpr ⟨level, hlevel, rfl⟩, ?_⟩
    unfold Compactor.level_runs
    rw [Compactor.isEmpty_false_of_ne_nil hne]
    simp [htype]
  · intro level hlevel hne htype info hinfo hov
    rw [Compactor.build_sst_iter_eq]
    refine List.mem_flatten.mpr ⟨Compactor.level_runs r.key_range level,
      List.mem_map.mpr ⟨level, hlevel, rfl⟩, ?_⟩
    unfold Compactor.level_runs
    rw [Compactor.isEmpty_false_of_ne_nil hne]
    simp only [Bool.false_eq_true, if_false, htype, if_neg htype]
    exact List.mem_map.mpr ⟨info, List.mem_filter.mpr ⟨hinfo, hov⟩, rfl⟩

/-- C8: `CompactorRunner::new` maps compression algorithm 0 to none, 1 to
Lz4 and anything else to Zstd, takes its capacity from the task-memory
estimate, and sets both its own and the task config's key range to exactly
`task.splits[split_index]` with an exclusive right bound. -/
theorem compactor_runner_new_spec (split_index : Nat)
    (context : Compactor.CompactorContext) (task : Compactor.CompactTask)
    (h : split_index < task.splits.length) :
    (task.compression_algorithm = 0 →
      (Compactor.CompactorRunner.new split_index context task
        h).compactor.options.compression_algorithm
        = Compactor.CompressionAlgorithm.none) ∧
    (task.compression_algorithm = 1 →
      (Compactor.CompactorRunner.new split_index context task
        h).compactor.options.compression_algorithm
        = Compactor.CompressionAlgorithm.lz4) ∧
    (task.compression_algorithm ≠ 0 → task.compression_algorithm ≠ 1 →
      (Compactor.CompactorRunner.new split_index context task
        h).compactor.options.compression_algorithm
        = Compactor.CompressionAlgorithm.zstd) ∧
    (Compactor.CompactorRunner.new split_index context task h).key_range
      = ⟨(task.splits.get ⟨split_index, h⟩).left,
          (task.splits.get ⟨split_index, h⟩).right, true⟩ ∧
    (Compactor.CompactorRunner.new split_index context task
        h).compactor.task_config.key_range
      = (Compactor.CompactorRunner.new split_index context task
          h).key_range ∧
    (Compactor.CompactorRunner.new split_index context task
        h).compactor.options.capacity
      = context.estimate_task_memory_capacity task := by
  obtain ⟨ssts, splits, wm, calg, gc, ex, sbt⟩ := task
  refine ⟨?_, ?_, ?_, rfl, rfl, rfl⟩
  · intro h0
    simp only at h0
    subst h0
    rfl
  · intro h1
    simp only at h1
    subst h1
    rfl
  · intro h0 h1
    simp only at h0 h1
    match calg, h0, h1 with
    | n + 2, _, _ => rfl

/-- Witness for C8 at split 0 of `mergeTask` (compression algorithm 1). -/
theorem compactor_runner_new_spec_witness :
    0 < Compactor.mergeTask.splits.length ∧
    ((Compactor.mergeTask.compression_algorithm = 0 →
      (Compactor.CompactorRunner.new 0 Compactor.mergeContext
        Compactor.mergeTask (by decide)).compactor.options.compression_algorithm
        = Compactor.CompressionAlgorithm.none) ∧
    (Compactor.mergeTask.compression_algorithm = 1 →
      (Compactor.CompactorRunner.new 0 Compactor.mergeContext
        Compactor.mergeTask (by decide)).compactor.options.compression_algorithm
        = Compactor.CompressionAlgorithm.lz4) ∧
    (Compactor.mergeTask.compression_algorithm ≠ 0 →
      Compactor.mergeTask.compression_algorithm ≠ 1 →
      (Compactor.CompactorRunner.new 0 Compactor.mergeContext
        Compactor.mergeTask (by decide)).compactor.options.compression_algorithm
        = Compactor.CompressionAlgorithm.zstd) ∧
    (Compactor.CompactorRunner.new 0 Compactor.mergeContext
        Compactor.mergeTask (by decide)).key_range
      = ⟨(Compactor.mergeTask.splits.get ⟨0, by decide⟩).left,
          (Compactor.mergeTask.splits.get ⟨0, by decide⟩).right, true⟩ ∧
    (Compactor.CompactorRunner.new 0 Compactor.mergeContext
        Compactor.mergeTask (by decide)).compactor.task_config.key_range
      = (Compactor.CompactorRunner.new 0 Compactor.mergeContext
          Compactor.mergeTask (by decide)).key_range ∧
    (Compactor.CompactorRunner.new 0 Compactor.mergeContext
        Compactor.mergeTask (by decide)).compactor.options.capacity
      = Compactor.mergeContext.estimate_task_memory_capacity
          Compactor.mergeTask) :=
  ⟨by decide,
    compactor_runner_new_spec 0 Compactor.mergeContext Compactor.mergeTask
      (by decide)⟩

/-- C9: the total wrapper of `CompactorRunner::new` yields `none` — the
unchecked `task.splits[split_index]` indexing panics — exactly when
`split_index` is at or past the end of `task.splits`; the constructor never
returns an error value. -/
theorem compactor_runner_new_index_oob (split_index : Nat)
    (context : Compactor.CompactorContext)
    (task : Compactor.CompactTask) :
    Compactor.CompactorRunner.mkChecked split_index context task = none ↔
      task.splits.length ≤ split_index := by
  unfold Compactor.CompactorRunner.mkChecked
  by_cases h : split_index < task.splits.length
  · simp only [dif_pos h]
    constructor
    · intro hc
      cases hc
    · intro hle
      omega
  · simp only [dif_neg h]
    constructor
    · intro _
      omega
    · intro _
      trivial
